import Mathlib

/-!
Verification of the middle-truncation algorithm of
`src/js_modules/dagit/packages/ui/src/components/MiddleTruncate.tsx`.

The component displays a string truncated in the middle so that it fits a
target pixel width.  The core is the effect body of `useFixedSpan`: a binary
search over the truncation depth, driven by an external text-measurement
capability (`ctx.measureText`).  We embed the algorithm shallowly:

* JavaScript strings become Lean `String`s (one `Char` per UTF-16 code unit
  of the texts we consider; all texts in concrete inputs stay within that
  range).
* Pixel widths (JavaScript floating point numbers) become rationals `ℚ`;
  the algorithm only ever compares widths, so any linearly ordered field of
  measurements embeds the behaviour.
* The measurement capability becomes an explicit function argument
  `measure : String → ℚ`.
* The `while (start <= end)` loop becomes structural recursion on a fuel
  counter; the top-level call supplies fuel equal to the initial interval
  length `half`, which we prove is always sufficient (the interval strictly
  shrinks every iteration), so the fueled function computes exactly the
  JavaScript loop.
-/

/-- The ellipsis character inserted between the kept prefix and suffix,
the string literal appearing in the template literal of `useFixedSpan`. -/
def ellipsisChar : String := "…"

/-- JavaScript `s.slice(0, n)` for a natural number `n`: the first `n`
characters (the whole string when `n` exceeds its length). -/
def jsSliceTo (s : String) (n : ℕ) : String :=
  String.mk (s.data.take n)

/-- JavaScript `s.slice(-n)` for a natural number `n`.  For `n ≥ 1` this is
the last `n` characters (the whole string when `n` exceeds the length).
For `n = 0` the call is `s.slice(0)`, which is the WHOLE string — this
JavaScript quirk matters for the `end == 0` edge case of the algorithm. -/
def jsSliceFromEnd (s : String) (n : ℕ) : String :=
  if n = 0 then s else String.mk (s.data.drop (s.length - n))

/-- The candidate string built each loop iteration:
`${text.slice(0, mid)}…${text.slice(-mid)}`. -/
def middleTruncated (text : String) (mid : ℕ) : String :=
  jsSliceTo text mid ++ ellipsisChar ++ jsSliceFromEnd text mid

/-- The `while (start <= end)` binary-search loop of `useFixedSpan`.
Returns the final value of `end` together with the list of strings passed
to `ctx.measureText`, in call order.  `fuel` bounds the number of remaining
iterations; every top-level use supplies fuel at least the interval length
`end + 1 - start`, which suffices because the interval loses at least one
element per iteration. -/
def truncSearchGo (measure : String → ℚ) (targetWidth : ℚ) (text : String) :
    ℕ → ℕ → ℕ → ℕ × List String
  | 0, _, end_ => (end_, [])
  | fuel + 1, start, end_ =>
    if start ≤ end_ then
      let mid := (start + end_) / 2
      let truncatedText := middleTruncated text mid
      let rest :=
        if measure truncatedText < targetWidth then
          truncSearchGo measure targetWidth text fuel (mid + 1) end_
        else
          truncSearchGo measure targetWidth text fuel start (mid - 1)
      (rest.1, truncatedText :: rest.2)
    else
      (end_, [])

/-- The whole binary search of `useFixedSpan`: `start = 1`,
`end = half = Math.floor(text.length / 2)`; fuel `half` is exactly the
initial interval length. -/
def truncSearch (measure : String → ℚ) (targetWidth : ℚ) (text : String) :
    ℕ × List String :=
  truncSearchGo measure targetWidth text (text.length / 2) 1 (text.length / 2)

/-- The final value of the loop variable `end`. -/
def truncSearchEnd (measure : String → ℚ) (targetWidth : ℚ) (text : String) : ℕ :=
  (truncSearch measure targetWidth text).1

/-- The list of strings measured by `ctx.measureText` during one run. -/
def truncSearchMeasured (measure : String → ℚ) (targetWidth : ℚ) (text : String) :
    List String :=
  (truncSearch measure targetWidth text).2

/-- The string stored by `setTruncated` after the search:
`end >= half ? text : ${text.slice(0, end)}…${text.slice(-end)}`. -/
def useFixedSpanCompute (measure : String → ℚ) (targetWidth : ℚ) (text : String) :
    String :=
  if text.length / 2 ≤ truncSearchEnd measure targetWidth text then text
  else middleTruncated text (truncSearchEnd measure targetWidth text)

/-- The `targetStyle` state of `MiddleTruncate`: the measured width of the
bounding client rect and the computed font string. -/
structure TargetStyle where
  width : ℚ
  font : String

/-- One run of the `useFixedSpan` effect, starting from display state
`current`.  Mirrors the guards of the effect body in order: no
`targetStyle` yet → keep the current state; no 2d context obtainable →
keep the current state; `!width` (width zero) → keep the current state;
otherwise set the state to the computed truncation.  The measurement
capability is `font → string → width`, mirroring `ctx.font = font`
followed by `ctx.measureText`. -/
def useFixedSpanStep (measureCtx : Option (String → String → ℚ))
    (text : String) (targetStyle : Option TargetStyle) (current : String) :
    String :=
  match targetStyle with
  | none => current
  | some ts =>
    match measureCtx with
    | none => current
    | some measureWithFont =>
      if ts.width = 0 then current
      else useFixedSpanCompute (measureWithFont ts.font) ts.width text

/-- The string returned by the hook `useFixedSpan` after its effect first
runs: the state is initialised to `text` by `React.useState(text)`. -/
def useFixedSpan (measureCtx : Option (String → String → ℚ))
    (text : String) (targetStyle : Option TargetStyle) : String :=
  useFixedSpanStep measureCtx text targetStyle text

/-- A clipboard event as far as the copy handler can observe it: the
selection that the default copy action would place on the clipboard. -/
structure ClipboardEventModel where
  selection : String

/-- Outcome of running a copy handler: what was written to the clipboard
by script, and whether the default copy action was suppressed. -/
structure CopyEffect where
  clipboard : String
  defaultPrevented : Bool

/-- The `handleCopy` callback of `MiddleTruncate`: `e.preventDefault()`
followed by `navigator.clipboard.writeText(text)`, where `text` is the
full prop, independent of the displayed (possibly truncated) string and of
the selection. -/
def handleCopy (text : String) (_e : ClipboardEventModel) : CopyEffect :=
  { clipboard := text, defaultPrevented := true }

/-- Browser copy semantics, modelled from the spec: if the handler
suppressed the default action, the clipboard holds what the handler wrote;
otherwise it holds the selected (displayed, possibly truncated) content. -/
def clipboardAfterCopy (e : ClipboardEventModel) (eff : CopyEffect) : String :=
  if eff.defaultPrevented then eff.clipboard else e.selection

/-- The fit test of one loop iteration at depth `k`: the measured width of
the depth-`k` candidate is strictly below the target width. -/
def fitsAt (measure : String → ℚ) (targetWidth : ℚ) (text : String) (k : ℕ) :
    Prop :=
  measure (middleTruncated text k) < targetWidth

instance (measure : String → ℚ) (targetWidth : ℚ) (text : String) (k : ℕ) :
    Decidable (fitsAt measure targetWidth text k) := by
  unfold fitsAt; infer_instance

/-- A measurement oracle monotone in the truncation depth over the depths
the search can probe: deeper candidates (more visible text) never measure
narrower. -/
def MonotoneCandidates (measure : String → ℚ) (text : String) : Prop :=
  ∀ j k : ℕ, 1 ≤ j → j ≤ k → k ≤ text.length / 2 →
    measure (middleTruncated text j) ≤ measure (middleTruncated text k)

/-- The length-proportional measurement oracle used for concrete runs:
every character one pixel wide. -/
def lengthOracle (s : String) : ℚ := (s.length : ℚ)

example : useFixedSpanCompute lengthOracle 3 "ab" = "…ab" := by decide
example : useFixedSpanCompute lengthOracle 4 "ab" = "ab" := by decide
example : useFixedSpanCompute lengthOracle 4 "abcdef" = "a…f" := by decide
example : useFixedSpanCompute lengthOracle 5 "abcdef" = "a…f" := by decide
example : useFixedSpanCompute lengthOracle 6 "abcdef" = "ab…ef" := by decide
example : useFixedSpanCompute lengthOracle 8 "abcdef" = "abcdef" := by decide
example : truncSearchMeasured lengthOracle 10 "a…b" = ["a…b"] := by decide
example : useFixedSpanCompute lengthOracle 7 "" = "" := by decide

/-! ## Structural facts about the search loop -/

/-- The loop variable `end` never increases, for every oracle. -/
theorem truncSearchGo_fst_le (measure : String → ℚ) (targetWidth : ℚ)
    (text : String) :
    ∀ fuel start end_ : ℕ,
      (truncSearchGo measure targetWidth text fuel start end_).1 ≤ end_ := by
  intro fuel
  induction fuel with
  | zero => intro start end_; simp [truncSearchGo]
  | succ fuel ih =>
    intro start end_
    by_cases hse : start ≤ end_
    · simp only [truncSearchGo, if_pos hse]
      by_cases hfit :
          measure (middleTruncated text ((start + end_) / 2)) < targetWidth
      · simpa [hfit] using ih ((start + end_) / 2 + 1) end_
      · have h := ih start ((start + end_) / 2 - 1)
        have hmid : (start + end_) / 2 ≤ end_ := by omega
        simp only [hfit, if_neg, if_false]
        exact le_trans h (by omega)
    · simp [truncSearchGo, hse]

/-- Length of a candidate at depth `k ≥ 1`: `min k length` kept characters
on each side plus the one-character ellipsis. -/
theorem middleTruncated_length (text : String) (k : ℕ) (hk : 1 ≤ k) :
    (middleTruncated text k).length = 2 * min k text.length + 1 := by
  have hk0 : k ≠ 0 := by omega
  have hlen : text.length = text.data.length := rfl
  simp only [middleTruncated, jsSliceTo, jsSliceFromEnd, ellipsisChar, hk0,
    if_false, String.length_append, ite_false]
  have h1 : (String.mk (text.data.take k)).length = min k text.data.length := by
    show (text.data.take k).length = min k text.data.length
    exact List.length_take k text.data
  have h2 : (String.mk (text.data.drop (text.length - k))).length
      = text.data.length - (text.length - k) := by
    show (text.data.drop (text.length - k)).length
        = text.data.length - (text.length - k)
    exact List.length_drop (text.length - k) text.data
  have h3 : ("…" : String).length = 1 := rfl
  rw [h1, h2, h3]
  omega

/-- The one-pixel-per-character oracle is monotone in truncation depth. -/
theorem lengthOracle_monotone (text : String) :
    MonotoneCandidates lengthOracle text := by
  intro j k hj hjk hk
  have h1 := middleTruncated_length text j hj
  have h2 := middleTruncated_length text k (le_trans hj hjk)
  simp only [lengthOracle, h1, h2]
  exact_mod_cast by omega

/-- Downward closure of the fit test, derived from a monotone oracle:
if a deeper candidate fits, every shallower one does. -/
theorem monotone_fits_downward (measure : String → ℚ) (targetWidth : ℚ)
    (text : String) (mono : MonotoneCandidates measure text) :
    ∀ j k : ℕ, 1 ≤ j → j ≤ k → k ≤ text.length / 2 →
      fitsAt measure targetWidth text k → fitsAt measure targetWidth text j :=
  fun j k h1 h2 h3 h4 => lt_of_le_of_lt (mono j k h1 h2 h3) h4

/-- Main loop invariant.  If every depth below `start` is known to fit and
every depth above `end_` (up to `half`) is known not to fit, and the fit
test is downward closed on `[1, half]`, then the final `end` value `r`
satisfies: `r ≤ end_`, every depth in `[1, r]` fits, and no depth in
`(r, half]` fits. -/
theorem truncSearchGo_spec (measure : String → ℚ) (targetWidth : ℚ)
    (text : String) (half : ℕ)
    (dc : ∀ j k : ℕ, 1 ≤ j → j ≤ k → k ≤ half →
      fitsAt measure targetWidth text k → fitsAt measure targetWidth text j) :
    ∀ fuel start end_ : ℕ, 1 ≤ start → end_ ≤ half → end_ + 1 - start ≤ fuel →
      (∀ k, 1 ≤ k → k < start → fitsAt measure targetWidth text k) →
      (∀ k, end_ < k → k ≤ half → ¬ fitsAt measure targetWidth text k) →
      (truncSearchGo measure targetWidth text fuel start end_).1 ≤ end_ ∧
      (∀ k, 1 ≤ k → k ≤ (truncSearchGo measure targetWidth text fuel start end_).1 →
        fitsAt measure targetWidth text k) ∧
      (∀ k, (truncSearchGo measure targetWidth text fuel start end_).1 < k →
        k ≤ half → ¬ fitsAt measure targetWidth text k) := by
  intro fuel
  induction fuel with
  | zero =>
    intro start end_ hs he hfuel hlo hhi
    have hend : end_ < start := by omega
    simp only [truncSearchGo]
    exact ⟨le_refl _, fun k hk1 hk2 => hlo k hk1 (by omega), hhi⟩
  | succ fuel ih =>
    intro start end_ hs he hfuel hlo hhi
    by_cases hse : start ≤ end_
    · have hmid1 : start ≤ (start + end_) / 2 := by omega
      have hmid2 : (start + end_) / 2 ≤ end_ := by omega
      simp only [truncSearchGo, if_pos hse]
      by_cases hfit :
          measure (middleTruncated text ((start + end_) / 2)) < targetWidth
      · simp only [hfit, if_pos, if_true]
        exact ih ((start + end_) / 2 + 1) end_ (by omega) he (by omega)
          (fun k hk1 hk2 => by
            by_cases hks : k < start
            · exact hlo k hk1 hks
            · exact dc k ((start + end_) / 2) hk1 (by omega) (by omega) hfit)
          hhi
      · simp only [hfit, if_neg, if_false]
        have hrec := ih start ((start + end_) / 2 - 1) hs (by omega) (by omega)
          hlo
          (fun k hk1 hk2 hfitk => by
            by_cases hke : end_ < k
            · exact hhi k hke hk2 hfitk
            · exact hfit (dc ((start + end_) / 2) k (by omega) (by omega) hk2 hfitk))
        exact ⟨le_trans hrec.1 (by omega), hrec.2.1, hrec.2.2⟩
    · simp only [truncSearchGo, if_neg hse]
      exact ⟨le_refl _, fun k hk1 hk2 => hlo k hk1 (by omega), hhi⟩

/-- Specialisation to the top-level call: for a monotone oracle, the final
`end` value `r` is at most `half`, every depth in `[1, r]` fits, and no
depth in `(r, half]` fits — so `r` is the largest fitting depth, or `0`
when none fits. -/
theorem truncSearchEnd_spec (measure : String → ℚ) (targetWidth : ℚ)
    (text : String) (mono : MonotoneCandidates measure text) :
    truncSearchEnd measure targetWidth text ≤ text.length / 2 ∧
    (∀ k, 1 ≤ k → k ≤ truncSearchEnd measure targetWidth text →
      fitsAt measure targetWidth text k) ∧
    (∀ k, truncSearchEnd measure targetWidth text < k → k ≤ text.length / 2 →
      ¬ fitsAt measure targetWidth text k) := by
  have h := truncSearchGo_spec measure targetWidth text (text.length / 2)
    (monotone_fits_downward measure targetWidth text mono)
    (text.length / 2) 1 (text.length / 2)
    (le_refl 1) (le_refl _) (by omega)
    (fun k hk1 hk2 => absurd hk2 (by omega))
    (fun k hk1 hk2 => absurd hk1 (by omega))
  exact h

/-- Bound on the number of `measureText` calls: an interval of `n`
candidate depths is probed with at most `log2 n + 1` measurements. -/
theorem truncSearchGo_count (measure : String → ℚ) (targetWidth : ℚ)
    (text : String) :
    ∀ fuel start end_ : ℕ, 1 ≤ start → end_ + 1 - start ≤ fuel →
      (truncSearchGo measure targetWidth text fuel start end_).2.length ≤
        if end_ + 1 - start = 0 then 0 else Nat.log 2 (end_ + 1 - start) + 1 := by
  intro fuel
  induction fuel with
  | zero =>
    intro start end_ hs hfuel
    have h0 : end_ + 1 - start = 0 := by omega
    simp [truncSearchGo, h0]
  | succ fuel ih =>
    intro start end_ hs hfuel
    by_cases hse : start ≤ end_
    · have hn : ¬ (end_ + 1 - start = 0) := by omega
      rw [if_neg hn]
      simp only [truncSearchGo, if_pos hse]
      by_cases hfit :
          measure (middleTruncated text ((start + end_) / 2)) < targetWidth
      · rw [if_pos hfit]
        simp only [List.length_cons]
        have hrec := ih ((start + end_) / 2 + 1) end_ (by omega) (by omega)
        by_cases h1 : end_ + 1 - ((start + end_) / 2 + 1) = 0
        · rw [if_pos h1] at hrec
          omega
        · rw [if_neg h1] at hrec
          have hhalf : end_ + 1 - ((start + end_) / 2 + 1) ≤
              (end_ + 1 - start) / 2 := by omega
          have h2n : 2 ≤ end_ + 1 - start := by omega
          have hlog1 := Nat.log_mono_right (b := 2) hhalf
          have hlog2 := Nat.log_div_base 2 (end_ + 1 - start)
          have hlog3 : 0 < Nat.log 2 (end_ + 1 - start) :=
            Nat.log_pos (by omega) h2n
          omega
      · rw [if_neg hfit]
        simp only [List.length_cons]
        have hrec := ih start ((start + end_) / 2 - 1) hs (by omega)
        by_cases h1 : (start + end_) / 2 - 1 + 1 - start = 0
        · rw [if_pos h1] at hrec
          omega
        · rw [if_neg h1] at hrec
          have hhalf : (start + end_) / 2 - 1 + 1 - start ≤
              (end_ + 1 - start) / 2 := by omega
          have h2n : 2 ≤ end_ + 1 - start := by omega
          have hlog1 := Nat.log_mono_right (b := 2) hhalf
          have hlog2 := Nat.log_div_base 2 (end_ + 1 - start)
          have hlog3 : 0 < Nat.log 2 (end_ + 1 - start) :=
            Nat.log_pos (by omega) h2n
          omega
    · have h0 : end_ + 1 - start = 0 := by omega
      simp [truncSearchGo, hse, h0]

/-- Every string handed to the oracle is a candidate at a depth in
`[start, end_] ⊆ [1, half]`. -/
theorem truncSearchGo_measured_mem (measure : String → ℚ) (targetWidth : ℚ)
    (text : String) (half : ℕ) :
    ∀ fuel start end_ : ℕ, 1 ≤ start → end_ ≤ half →
      ∀ s ∈ (truncSearchGo measure targetWidth text fuel start end_).2,
        ∃ k, 1 ≤ k ∧ k ≤ half ∧ s = middleTruncated text k := by
  intro fuel
  induction fuel with
  | zero =>
    intro start end_ hs he s hmem
    simp [truncSearchGo] at hmem
  | succ fuel ih =>
    intro start end_ hs he s hmem
    by_cases hse : start ≤ end_
    · simp only [truncSearchGo, if_pos hse] at hmem
      rcases List.mem_cons.mp hmem with h | h
      · exact ⟨(start + end_) / 2, by omega, by omega, h⟩
      · by_cases hfit :
            measure (middleTruncated text ((start + end_) / 2)) < targetWidth
        · rw [if_pos hfit] at h
          exact ih ((start + end_) / 2 + 1) end_ (by omega) he s h
        · rw [if_neg hfit] at h
          exact ih start ((start + end_) / 2 - 1) hs (by omega) s h
    · simp [truncSearchGo, hse] at hmem

/-! ## Claims -/

/-- Claim C1 counterexample: with the (monotone) one-pixel-per-character
oracle, the text `"ab"` measures 2, at most the target width 3, yet the
algorithm does not return it unchanged: the only probed candidate `"a…b"`
— which includes the inserted ellipsis — measures 3, not strictly below
the target. -/
theorem claim_c1_counterexample :
    lengthOracle "ab" ≤ 3 ∧
    useFixedSpanCompute lengthOracle 3 "ab" ≠ "ab" := by
  exact ⟨by decide, by decide⟩

/-- Claim C1 (amended): for an oracle monotone in depth, if the text is
too short to truncate (`half = 0`) or the deepest candidate — the text
with its middle exchanged for the ellipsis — measures strictly below the
target width, then the algorithm returns the text unchanged with no
ellipsis inserted. -/
theorem claim_c1_full_text_kept (measure : String → ℚ) (targetWidth : ℚ)
    (text : String) (mono : MonotoneCandidates measure text)
    (h : text.length / 2 = 0 ∨
      fitsAt measure targetWidth text (text.length / 2)) :
    useFixedSpanCompute measure targetWidth text = text := by
  rcases h with h | h
  · unfold useFixedSpanCompute
    rw [if_pos (by rw [h]; exact Nat.zero_le _)]
  · obtain ⟨h1, h2, h3⟩ := truncSearchEnd_spec measure targetWidth text mono
    by_cases hhalf : text.length / 2 ≤ truncSearchEnd measure targetWidth text
    · unfold useFixedSpanCompute
      rw [if_pos hhalf]
    · exact absurd h (h3 (text.length / 2) (by omega) (le_refl _))

/-- Witness for the amended C1 at a concrete input. -/
theorem claim_c1_full_text_kept_witness :
    useFixedSpanCompute lengthOracle 4 "ab" = "ab" :=
  claim_c1_full_text_kept lengthOracle 4 "ab" (lengthOracle_monotone "ab")
    (Or.inr (by decide))

/-- Claim C2: for `half ≥ 1` and an oracle monotone in truncation depth,
the final value of `end` is the largest depth in `[1, half]` whose
candidate measures strictly below the target width, or `0` when no depth
fits; and when truncation occurs (`1 ≤ end < half`) the returned string
measures strictly below the target width while the candidate one depth
deeper does not fit. -/
theorem claim_c2_binary_search (measure : String → ℚ) (targetWidth : ℚ)
    (text : String) (_hhalf : 1 ≤ text.length / 2)
    (mono : MonotoneCandidates measure text) :
    ((truncSearchEnd measure targetWidth text = 0 ∧
        ∀ k, 1 ≤ k → k ≤ text.length / 2 →
          ¬ fitsAt measure targetWidth text k) ∨
      (1 ≤ truncSearchEnd measure targetWidth text ∧
        truncSearchEnd measure targetWidth text ≤ text.length / 2 ∧
        fitsAt measure targetWidth text (truncSearchEnd measure targetWidth text) ∧
        ∀ k, truncSearchEnd measure targetWidth text < k →
          k ≤ text.length / 2 → ¬ fitsAt measure targetWidth text k)) ∧
    (1 ≤ truncSearchEnd measure targetWidth text →
      truncSearchEnd measure targetWidth text < text.length / 2 →
      measure (useFixedSpanCompute measure targetWidth text) < targetWidth ∧
      ¬ fitsAt measure targetWidth text
        (truncSearchEnd measure targetWidth text + 1)) := by
  obtain ⟨h1, h2, h3⟩ := truncSearchEnd_spec measure targetWidth text mono
  constructor
  · by_cases hr : truncSearchEnd measure targetWidth text = 0
    · exact Or.inl ⟨hr, fun k hk1 hk2 => h3 k (by omega) hk2⟩
    · exact Or.inr ⟨by omega, h1, h2 _ (by omega) (le_refl _), h3⟩
  · intro hr1 hr2
    have hres : useFixedSpanCompute measure targetWidth text =
        middleTruncated text (truncSearchEnd measure targetWidth text) := by
      unfold useFixedSpanCompute
      rw [if_neg (by omega)]
    refine ⟨?_, h3 _ (by omega) (by omega)⟩
    rw [hres]
    exact h2 _ hr1 (le_refl _)

/-- Witness for C2 at a concrete input: text `"abcdef"`, width 5, length
oracle; the search settles on depth 1, whose candidate fits while depth 2
does not. -/
theorem claim_c2_binary_search_witness :
    truncSearchEnd lengthOracle 5 "abcdef" = 1 ∧
    fitsAt lengthOracle 5 "abcdef" 1 ∧
    ¬ fitsAt lengthOracle 5 "abcdef" 2 ∧
    lengthOracle (useFixedSpanCompute lengthOracle 5 "abcdef") < 5 := by
  have h := claim_c2_binary_search lengthOracle 5 "abcdef" (by decide)
    (lengthOracle_monotone "abcdef")
  refine ⟨by decide, by decide, by decide, ?_⟩
  exact (h.2 (by decide) (by decide)).1

/-- Claim C3 counterexample: at text `"abc"`, target width 2, length
oracle, the algorithm truncates (the result is not the original text), but
the result `"…abc"` has even length 4, while every candidate of the
claimed symmetric form has odd length — so no depth `k ≥ 1` produces it. -/
theorem claim_c3_counterexample :
    useFixedSpanCompute lengthOracle 2 "abc" ≠ "abc" ∧
    ∀ k : ℕ, 1 ≤ k →
      useFixedSpanCompute lengthOracle 2 "abc" ≠ middleTruncated "abc" k := by
  refine ⟨by decide, ?_⟩
  intro k hk h
  have hres : useFixedSpanCompute lengthOracle 2 "abc" = "…abc" := by decide
  rw [hres] at h
  have hlen := middleTruncated_length "abc" k hk
  rw [← h] at hlen
  have h4 : ("…abc" : String).length = 4 := by decide
  rw [h4] at hlen
  omega

/-- Claim C3 (amended): whenever the search ends with `1 ≤ end < half`,
the result is `prefix + ellipsis + suffix` with the prefix and suffix
taken from the start and end of the text, both of length exactly
`end ≥ 1`; but when the search ends with `end = 0`, the result is instead
the ellipsis followed by the whole text (`text.slice(-0)` is the whole
string). -/
theorem claim_c3_truncated_shape (measure : String → ℚ) (targetWidth : ℚ)
    (text : String)
    (h : truncSearchEnd measure targetWidth text < text.length / 2) :
    (1 ≤ truncSearchEnd measure targetWidth text →
      useFixedSpanCompute measure targetWidth text =
        jsSliceTo text (truncSearchEnd measure targetWidth text) ++
          ellipsisChar ++
          jsSliceFromEnd text (truncSearchEnd measure targetWidth text) ∧
      (jsSliceTo text (truncSearchEnd measure targetWidth text)).length =
        truncSearchEnd measure targetWidth text ∧
      (jsSliceFromEnd text (truncSearchEnd measure targetWidth text)).length =
        truncSearchEnd measure targetWidth text) ∧
    (truncSearchEnd measure targetWidth text = 0 →
      useFixedSpanCompute measure targetWidth text = ellipsisChar ++ text) := by
  have hres : useFixedSpanCompute measure targetWidth text =
      middleTruncated text (truncSearchEnd measure targetWidth text) := by
    unfold useFixedSpanCompute
    rw [if_neg (by omega)]
  have hrL : truncSearchEnd measure targetWidth text ≤ text.length := by
    have := Nat.div_le_self text.length 2
    omega
  constructor
  · intro hr1
    refine ⟨hres, ?_, ?_⟩
    · show (text.data.take (truncSearchEnd measure targetWidth text)).length = _
      rw [List.length_take]
      have : text.data.length = text.length := rfl
      omega
    · unfold jsSliceFromEnd
      rw [if_neg (by omega)]
      show (text.data.drop (text.length - truncSearchEnd measure targetWidth text)).length = _
      rw [List.length_drop]
      have : text.data.length = text.length := rfl
      omega
  · intro hr0
    rw [hres, hr0]
    show String.mk (text.data.take 0) ++ ellipsisChar ++
      jsSliceFromEnd text 0 = ellipsisChar ++ text
    rw [List.take_zero]
    unfold jsSliceFromEnd
    rw [if_pos rfl]
    show String.mk ([] ++ ellipsisChar.data ++ text.data) = _
    rw [List.nil_append]
    rfl

/-- Witness for the amended C3 at a concrete input: text `"abcdef"`,
width 4, length oracle; the search ends at depth 1 and the result is
`"a" + ellipsis + "f"`. -/
theorem claim_c3_truncated_shape_witness :
    useFixedSpanCompute lengthOracle 4 "abcdef" =
      jsSliceTo "abcdef" 1 ++ ellipsisChar ++ jsSliceFromEnd "abcdef" 1 ∧
    (jsSliceTo "abcdef" 1).length = 1 ∧
    (jsSliceFromEnd "abcdef" 1).length = 1 := by
  have h := (claim_c3_truncated_shape lengthOracle 4 "abcdef" (by decide)).1
    (by decide)
  have hr : truncSearchEnd lengthOracle 4 "abcdef" = 1 := by decide
  rw [hr] at h
  exact h

/-- Claim C4 (code bug): at text `"ab"`, target width 1, length oracle,
even the depth-1 candidate `"a…b"` does not fit, so the search ends with
`end = 0`; the code then returns the ellipsis followed by the WHOLE text
— `"…ab"` — because `text.slice(-0)` is `text.slice(0)`, the whole
string, while the spec prescribes the bare single-character ellipsis. -/
theorem claim_c4_end_zero_result :
    truncSearchEnd lengthOracle 1 "ab" = 0 ∧
    useFixedSpanCompute lengthOracle 1 "ab" = "…ab" ∧
    useFixedSpanCompute lengthOracle 1 "ab" ≠ "…" := by
  exact ⟨by decide, by decide, by decide⟩

/-- Claim C5: for every text, measurement context, target style and
selection (in particular the visibly truncated display), the copy handler
suppresses the default copy action and the clipboard afterwards holds the
full original text. -/
theorem claim_c5_copy_full_text (measureCtx : Option (String → String → ℚ))
    (text : String) (targetStyle : Option TargetStyle)
    (e : ClipboardEventModel) :
    (handleCopy text e).defaultPrevented = true ∧
    clipboardAfterCopy e (handleCopy text e) = text ∧
    clipboardAfterCopy
      { selection := useFixedSpan measureCtx text targetStyle }
      (handleCopy text
        { selection := useFixedSpan measureCtx text targetStyle }) = text :=
  ⟨rfl, rfl, rfl⟩

/-- Claim C6: if no target style has been measured yet, or no 2d context
can be obtained, or the measured width is zero, the truncation effect
returns early and the hook keeps showing the full untruncated text. -/
theorem claim_c6_skip_without_width (measureCtx : Option (String → String → ℚ))
    (text : String) (targetStyle : Option TargetStyle)
    (h : targetStyle = none ∨ measureCtx = none ∨
      ∃ ts, targetStyle = some ts ∧ ts.width = 0) :
    useFixedSpan measureCtx text targetStyle = text := by
  rcases h with h | h | ⟨ts, hts, hw⟩
  · rw [h]; rfl
  · rw [h]
    unfold useFixedSpan useFixedSpanStep
    cases targetStyle <;> rfl
  · rw [hts]
    unfold useFixedSpan useFixedSpanStep
    cases measureCtx <;> simp [hw]

/-- Witness for C6 at a concrete input: a zero width skips truncation even
though a measurement context is available. -/
theorem claim_c6_skip_without_width_witness :
    useFixedSpan (some fun _font => lengthOracle) "hello"
      (some { width := 0, font := "14px sans-serif" }) = "hello" :=
  claim_c6_skip_without_width (some fun _font => lengthOracle) "hello"
    (some { width := 0, font := "14px sans-serif" })
    (Or.inr (Or.inr ⟨{ width := 0, font := "14px sans-serif" }, rfl, rfl⟩))

/-- Claim C7: for a fixed text and an oracle monotone in truncation depth,
the chosen depth (final `end`) is a non-decreasing function of the target
width. -/
theorem claim_c7_depth_monotone_in_width (measure : String → ℚ)
    (text : String) (W1 W2 : ℚ) (mono : MonotoneCandidates measure text)
    (hW : W1 ≤ W2) :
    truncSearchEnd measure W1 text ≤ truncSearchEnd measure W2 text := by
  obtain ⟨h11, h12, h13⟩ := truncSearchEnd_spec measure W1 text mono
  obtain ⟨h21, h22, h23⟩ := truncSearchEnd_spec measure W2 text mono
  by_contra hlt
  push_neg at hlt
  have hr1pos : 1 ≤ truncSearchEnd measure W1 text := by omega
  have hfit1 : fitsAt measure W1 text (truncSearchEnd measure W1 text) :=
    h12 _ hr1pos (le_refl _)
  have hfit2 : fitsAt measure W2 text (truncSearchEnd measure W1 text) :=
    lt_of_lt_of_le hfit1 hW
  exact h23 _ (by omega) h11 hfit2

/-- Witness for C7 at a concrete input. -/
theorem claim_c7_depth_monotone_in_width_witness :
    truncSearchEnd lengthOracle 3 "abcdef" ≤
      truncSearchEnd lengthOracle 5 "abcdef" :=
  claim_c7_depth_monotone_in_width lengthOracle "abcdef" 3 5
    (lengthOracle_monotone "abcdef") (by norm_num)

/-- Claim C8: the loop is a total function for every oracle (the model
terminates by construction, with fuel proven sufficient), and the number
of `measureText` calls is at most `log2 (max half 1) + 1`. -/
theorem claim_c8_call_count (measure : String → ℚ) (targetWidth : ℚ)
    (text : String) :
    (truncSearchMeasured measure targetWidth text).length ≤
      Nat.log 2 (max (text.length / 2) 1) + 1 := by
  have h := truncSearchGo_count measure targetWidth text (text.length / 2) 1
    (text.length / 2) (le_refl 1) (by omega)
  unfold truncSearchMeasured truncSearch
  by_cases h0 : text.length / 2 + 1 - 1 = 0
  · rw [if_pos h0] at h
    omega
  · rw [if_neg h0] at h
    have heq : text.length / 2 + 1 - 1 = text.length / 2 := by omega
    rw [heq] at h
    have hmax : max (text.length / 2) 1 = text.length / 2 := by omega
    rw [hmax]
    exact h

/-- Claim C9: for every oracle and width, a text of length at most 1
(`half = 0`) is returned unchanged and no measurement is made; in
particular the empty text yields the empty text for every width. -/
theorem claim_c9_short_text (measure : String → ℚ) (targetWidth : ℚ)
    (text : String) (h : text.length ≤ 1) :
    useFixedSpanCompute measure targetWidth text = text ∧
    truncSearchMeasured measure targetWidth text = [] := by
  have h0 : text.length / 2 = 0 := by omega
  constructor
  · unfold useFixedSpanCompute truncSearchEnd truncSearch
    rw [h0]
    simp [truncSearchGo]
  · unfold truncSearchMeasured truncSearch
    rw [h0]
    simp [truncSearchGo]

/-- Witness for C9: the empty text at an arbitrary width. -/
theorem claim_c9_short_text_witness :
    useFixedSpanCompute lengthOracle 7 "" = "" ∧
    truncSearchMeasured lengthOracle 7 "" = [] :=
  claim_c9_short_text lengthOracle 7 "" (by decide)

/-- Claim C10 counterexample: for the text `"a…b"` the depth-1 candidate
is the text itself, so the oracle IS invoked on the full text — the
"never on the full text" part of the claim fails. -/
theorem claim_c10_counterexample :
    "a…b" ∈ truncSearchMeasured lengthOracle 10 "a…b" ∧
    middleTruncated "a…b" 1 = "a…b" :=
  ⟨by decide, by decide⟩

/-- Claim C10 (amended): every string passed to the measurement oracle is
a middle-truncated candidate at some depth in `[1, half]` — never the
bare text as such, though a candidate can coincide with the full text when
the text equals one of its own middle truncations — so the full-text-fits
decision `end ≥ half` rests solely on such candidates. -/
theorem claim_c10_only_candidates_measured (measure : String → ℚ)
    (targetWidth : ℚ) (text : String) (s : String)
    (h : s ∈ truncSearchMeasured measure targetWidth text) :
    ∃ k, 1 ≤ k ∧ k ≤ text.length / 2 ∧ s = middleTruncated text k :=
  truncSearchGo_measured_mem measure targetWidth text (text.length / 2)
    (text.length / 2) 1 (text.length / 2) (le_refl 1) (le_refl _) s h

/-- Witness for the amended C10 at a concrete input. -/
theorem claim_c10_only_candidates_measured_witness :
    ∃ k, 1 ≤ k ∧ k ≤ ("abcdef" : String).length / 2 ∧
      "ab…ef" = middleTruncated "abcdef" k :=
  claim_c10_only_candidates_measured lengthOracle 5 "abcdef" "ab…ef"
    (by decide)
